/-
  Verification of the index-and-chunk query engine core.

  Shallow embedding of:
  - pkg/storage/stores/shipper/util/queries.go
      (QueriesByTable, DoParallelQueries, IndexDeduper, filteringBatch)
  - pkg/storage/chunk/util/parallel_chunk_fetch.go (GetParallelChunks)
  - pkg/storage/tsdb/index.go (ChunkRef.Less, the Index contract)

  Modelling conventions:
  - Go maps are modelled as association lists in insertion order; a map read
    of a missing key yields the zero value (empty list), as in Go.
  - Byte slices that are only ever compared for equality (range values) are
    modelled as String; GetUnsafeString is a zero-copy []byte-to-string
    conversion, i.e. the identity under this modelling.
  - Concurrency is sequentialized: every isSeen call in the Go code performs
    its check and insert under the RWMutex (optimistic read, then exclusive
    re-check and insert), so each call is atomic; an arbitrary interleaving of
    workers is an arbitrary ordering of atomic isSeen calls, which the
    theorems capture by quantifying over arbitrary batch sequences and, for
    the chunk fetcher, over arbitrary permutations of the arrival order.
  - Go errors are an abstract type ε, a fallible result is Option ε / Except.
-/
import Mathlib

/-- An index query (pkg/storage/chunk IndexQuery); only the fields the core
reads are modelled: the target table and the hash key. -/
structure IndexQuery where
  TableName : String
  HashValue : String
  deriving DecidableEq, Repr

/-- Read of the Go map queriesByTable[t]: the list stored at the first entry
with key t, or the zero value (empty list) when the key is absent. -/
def lookupTable (m : List (String × List IndexQuery)) (t : String) : List IndexQuery :=
  match m with
  | [] => []
  | (k, v) :: rest => if k = t then v else lookupTable rest t

/-- One iteration of the loop body of QueriesByTable: append query to the
list at its table key, creating the entry when missing (the Go code first
materialises an empty slice for a missing key, then appends). -/
def updateTable (m : List (String × List IndexQuery)) (query : IndexQuery) :
    List (String × List IndexQuery) :=
  match m with
  | [] => [(query.TableName, [query])]
  | (k, v) :: rest =>
    if k = query.TableName then (k, v ++ [query]) :: rest
    else (k, v) :: updateTable rest query

/-- QueriesByTable groups and returns queries by tables
(queries.go lines 21-32); the Go map is an association list here. -/
def QueriesByTable (queries : List IndexQuery) : List (String × List IndexQuery) :=
  queries.foldl updateTable []

/-- A chunk reference (pkg/storage/tsdb/index.go ChunkRef); model.Time is a
signed 64-bit millisecond count, modelled as Int (Less only compares, so no
overflow is involved). -/
structure ChunkRef where
  User : String
  Fingerprint : Nat
  Start : Int
  End : Int
  Checksum : Nat
  deriving DecidableEq, Repr

/-- ChunkRef.Less, compares by (Start, End), assumes User is equivalent
(index.go lines 26-31). -/
def ChunkRef.Less (r x : ChunkRef) : Bool :=
  if r.Start ≠ x.Start then decide (r.Start < x.Start)
  else decide (r.End ≤ x.End)

/-- ChunkRef.Less as a relation, for use with the sorting library. -/
def lessRel (a b : ChunkRef) : Prop := a.Less b = true

instance : DecidableRel lessRel := fun a b => by unfold lessRel; infer_instance

instance : IsTotal ChunkRef lessRel where
  total a b := by
    unfold lessRel ChunkRef.Less
    by_cases h : a.Start = b.Start
    · simp [h]; omega
    · rcases lt_or_gt_of_ne h with hlt | hgt
      · left; simp [h, hlt]
      · right; have : b.Start ≠ a.Start := fun hc => h hc.symm
        simp [this]; omega

instance : IsTrans ChunkRef lessRel where
  trans a b c hab hbc := by
    unfold lessRel ChunkRef.Less at hab hbc ⊢
    by_cases h1 : a.Start = b.Start
    · by_cases h2 : b.Start = c.Start
      · simp only [h1, h2, ne_eq, not_true_eq_false, if_false, decide_eq_true_eq] at hab hbc
        have h3 : a.Start = c.Start := h1.trans h2
        simp only [h3, ne_eq, not_true_eq_false, if_false, decide_eq_true_eq]
        omega
      · simp only [h1, ne_eq, not_true_eq_false, if_false, decide_eq_true_eq] at hab
        simp only [h2, ne_eq, not_false_eq_true, if_true, decide_eq_true_eq] at hbc
        have h3 : a.Start ≠ c.Start := by rw [h1]; omega
        simp only [h3, ne_eq, not_false_eq_true, if_true, decide_eq_true_eq]
        omega
    · simp only [h1, ne_eq, not_false_eq_true, if_true, decide_eq_true_eq] at hab
      by_cases h2 : b.Start = c.Start
      · simp only [h2, ne_eq, not_true_eq_false, if_false, decide_eq_true_eq] at hbc
        have h3 : a.Start ≠ c.Start := by rw [← h2]; omega
        simp only [h3, ne_eq, not_false_eq_true, if_true, decide_eq_true_eq]
        omega
      · simp only [h2, ne_eq, not_false_eq_true, if_true, decide_eq_true_eq] at hbc
        have h3 : a.Start ≠ c.Start := by omega
        simp only [h3, ne_eq, not_false_eq_true, if_true, decide_eq_true_eq]
        omega

/-- Read of the nested Go map seenRangeValues[hashValue]: the range-value set
(as a list) at the first entry with that hash key, or the zero value (empty)
when the key is absent — in Go, indexing a missing key yields a nil inner map
in which every membership test is false. -/
def seenLookup (m : List (String × List String)) (h : String) : List String :=
  match m with
  | [] => []
  | (k, v) :: rest => if k = h then v else seenLookup rest h

/-- The write path of isSeen: add the hashValue key first if missing, then
add the rangeValue to that hash's set (queries.go lines 114-120). -/
def seenInsert (m : List (String × List String)) (h r : String) :
    List (String × List String) :=
  match m with
  | [] => [(h, [r])]
  | (k, v) :: rest =>
    if k = h then (k, v ++ [r]) :: rest
    else (k, v) :: seenInsert rest h r

/-- IndexDeduper (queries.go lines 71-76); the RWMutex is a lock, not data,
so it is not part of the state: its effect is that each isSeen call is
atomic, which the sequential state-passing model makes implicit. -/
structure IndexDeduper where
  callback : IndexQuery → List String → Bool
  seenRangeValues : List (String × List String)
  numEntriesSent : Nat

/-- NewIndexDeduper (queries.go lines 78-83). -/
def NewIndexDeduper (callback : IndexQuery → List String → Bool) : IndexDeduper :=
  { callback := callback, seenRangeValues := [], numEntriesSent := 0 }

/-- IndexDeduper.isSeen (queries.go lines 93-123), sequentialized: the
optimistic read-locked check and the exclusive re-check collapse into one
membership test, after which a miss inserts the pair and bumps the counter.
Returns (seen-before?, updated deduper). -/
def IndexDeduper.isSeen (i : IndexDeduper) (hashValue rangeValue : String) :
    Bool × IndexDeduper :=
  if rangeValue ∈ seenLookup i.seenRangeValues hashValue then
    (true, i)
  else
    (false,
      { i with
        seenRangeValues := seenInsert i.seenRangeValues hashValue rangeValue,
        numEntriesSent := i.numEntriesSent + 1 })

/-- The pair (h, r) is recorded in the deduper's seen-set. -/
def pairSeen (i : IndexDeduper) (h r : String) : Prop :=
  r ∈ seenLookup i.seenRangeValues h

instance (i : IndexDeduper) (h r : String) : Decidable (pairSeen i h r) := by
  unfold pairSeen; infer_instance

/-- Full consumption of a filteringBatchIter (queries.go lines 147-157) over
one batch: each underlying entry's range value is checked with isSeen against
the query's hash value, in order; entries that were already seen are skipped,
the rest are yielded. Returns (yielded range values in order, final deduper). -/
def filterBatch (i : IndexDeduper) (h : String) : List String → List String × IndexDeduper
  | [] => ([], i)
  | r :: rest =>
    let s := i.isSeen h r
    let t := filterBatch s.2 h rest
    if s.1 then t else (r :: t.1, t.2)

/-- A table-scoped execution: a sequence of (query hash, raw batch) pairs fed
through one IndexDeduper (DoParallelQueries routes every worker's batches
through the single deduper created for the call). Returns the (hash, range)
pairs delivered to the downstream callback, in delivery order, with the final
deduper state. -/
def processBatches (i : IndexDeduper) :
    List (String × List String) → List (String × String) × IndexDeduper
  | [] => ([], i)
  | (h, rs) :: rest =>
    let fb := filterBatch i h rs
    let tl := processBatches fb.2 rest
    (fb.1.map (fun r => (h, r)) ++ tl.1, tl.2)

/-- IndexDeduper.Callback (queries.go lines 85-91): invokes the wrapped
downstream callback once, on the filtering view of the batch, and returns its
boolean unchanged. The lazy filteringBatch is modelled by its full
consumption, so the downstream callback is a function of the filtered entry
list. -/
def IndexDeduper.Callback (i : IndexDeduper) (query : IndexQuery) (batch : List String) :
    Bool × IndexDeduper :=
  let fb := filterBatch i query.HashValue batch
  (i.callback query fb.1, fb.2)

/-- Total number of (hash, range) pairs stored in a seen-set: the sum over
all hash keys of the size of that hash's range-value set. -/
def totalSeen (m : List (String × List String)) : Nat :=
  (m.map (fun kv => kv.2.length)).sum

/-- maxQueriesPerGoroutine (queries.go line 14). -/
def maxQueriesPerGoroutine : Nat := 100

/-- The slicing loop of DoParallelQueries (queries.go lines 51-56): the
slices queries[i : min(i+100, len)] for i = 0, 100, 200, ... — i.e. the
contiguous chunks of at most maxQueriesPerGoroutine queries, in input order.
When len(queries) ≤ 100 the synchronous branch (line 47-49) issues the whole
list as the single group, which coincides with this chunking. -/
def batchQueries (queries : List IndexQuery) : List (List IndexQuery) :=
  if h : queries = [] then []
  else
    queries.take maxQueriesPerGoroutine ::
      batchQueries (queries.drop maxQueriesPerGoroutine)
termination_by queries.length
decreasing_by
  have hpos : 0 < queries.length := List.length_pos.mpr h
  simp only [List.length_drop, maxQueriesPerGoroutine]
  omega

/-- The error-collection loop of DoParallelQueries (queries.go lines 58-64):
lastErr starts nil and is overwritten by every non-nil error received, in
arrival order; errors are never combined. -/
def collectErrors {ε : Type} (errs : List (Option ε)) : Option ε :=
  errs.foldl (fun lastErr e => match e with | none => lastErr | some x => some x) none

/-- DoParallelQueries (queries.go lines 34-67). The querier is modelled by
the batches it pushes through the callback and the error it returns for a
given sub-list of queries; worker completion order is modelled as group
order (the error-ordering theorems quantify over arbitrary positions of the
failing workers). Empty queries return immediately without consulting the
querier. One IndexDeduper, created here from the caller's callback, filters
every group's batches; the first component is the (hash, range) stream the
downstream callback observes, the second the returned error. -/
def DoParallelQueries {ε : Type}
    (tableQuerier : List IndexQuery → List (String × List String) × Option ε)
    (queries : List IndexQuery) (callback : IndexQuery → List String → Bool) :
    List (String × String) × Option ε :=
  if queries = [] then ([], none)
  else
    let id := NewIndexDeduper callback
    let groupResults := (batchQueries queries).map tableQuerier
    let delivered := processBatches id (groupResults.map Prod.fst).flatten
    (delivered.1, collectErrors (groupResults.map Prod.snd))

/-- The outcome-collection loop of GetParallelChunks
(parallel_chunk_fetch.go lines 57-66): exactly one outcome per input chunk is
received; a success is appended to the result, a failure overwrites lastErr. -/
def collectOutcomes {α ε : Type} (outcomes : List (Except ε α)) : List α × Option ε :=
  outcomes.foldl
    (fun acc o =>
      match o with
      | Except.ok c => (acc.1 ++ [c], acc.2)
      | Except.error e => (acc.1, some e))
    ([], none)

/-- GetParallelChunks (parallel_chunk_fetch.go lines 21-75). ctxErr models
ctx.Err() at entry; when it is non-nil the function returns (nil, ctxErr)
before queuing work or spawning workers. Otherwise every queued chunk is
decoded exactly once by some worker and its outcome sent to the coordinator;
the chunks argument here is the coordinator's arrival order, so theorems over
an arbitrary permutation of the input cover every worker interleaving
(maxParallel and the pooled decode contexts affect scheduling only, not which
outcomes arrive). -/
def GetParallelChunks {α ε : Type} (ctxErr : Option ε) (chunks : List α)
    (f : α → Except ε α) : List α × Option ε :=
  match ctxErr with
  | some e => ([], some e)
  | none => collectOutcomes (chunks.map f)

/-- A shard selector (spec §3 ShardAnnotation): an (index, count) pair,
count required to be a power of two, index in [0, count). -/
structure Shard where
  index : Nat
  count : Nat
  deriving DecidableEq, Repr

/-- count is a power of two (an exponent k with n = 2^k exists; k ≤ n always
suffices since k < 2^k). -/
def isPowerOfTwo (n : Nat) : Bool := (List.range (n + 1)).any (fun k => n == 2 ^ k)

/-- Modelled from the spec: no GetChunkRefs implementation is under src/,
only the Index interface contract (pkg/storage/tsdb/index.go lines 33-50);
per spec §4.1 and §8.8, a non-nil shard whose count is not a power of two is
a caller error rejected before the query executes, a nil shard returns all
results, and a power-of-two shard restricts the results to that shard
(modelled as a deterministic fingerprint-based subset). -/
def GetChunkRefs (shard : Option Shard) (results : List ChunkRef) :
    Except String (List ChunkRef) :=
  match shard with
  | none => Except.ok results
  | some s =>
    if isPowerOfTwo s.count then
      Except.ok (results.filter (fun r => r.Fingerprint % s.count == s.index))
    else
      Except.error "shard count must be a power of two"

theorem lookupTable_updateTable (m : List (String × List IndexQuery))
    (q : IndexQuery) (t : String) :
    lookupTable (updateTable m q) t =
      if t = q.TableName then lookupTable m t ++ [q] else lookupTable m t := by
  induction m with
  | nil =>
    by_cases ht : t = q.TableName
    · simp [updateTable, lookupTable, ht]
    · simp [updateTable, lookupTable, ht, Ne.symm ht]
  | cons kv rest ih =>
    obtain ⟨k, v⟩ := kv
    by_cases hk : k = q.TableName
    · by_cases ht : t = q.TableName
      · simp [updateTable, lookupTable, hk, ht]
      · simp [updateTable, lookupTable, hk, ht, Ne.symm ht]
    · by_cases hkt : k = t
      · have ht : t ≠ q.TableName := by rw [← hkt]; exact hk
        simp [updateTable, lookupTable, hk, hkt, ht]
      · by_cases ht : t = q.TableName
        · subst ht
          simp [updateTable, lookupTable, hk, hkt, ih]
        · simp [updateTable, lookupTable, hk, hkt, ht, ih]

theorem lookupTable_foldl (qs : List IndexQuery)
    (m : List (String × List IndexQuery)) (t : String) :
    lookupTable (qs.foldl updateTable m) t =
      lookupTable m t ++ qs.filter (fun q => decide (q.TableName = t)) := by
  induction qs generalizing m with
  | nil => simp
  | cons q qs ih =>
    rw [List.foldl_cons, ih, lookupTable_updateTable]
    by_cases ht : t = q.TableName
    · simp [List.filter_cons, ht]
    · have : q.TableName ≠ t := Ne.symm ht
      simp [List.filter_cons, this, ht]

theorem keys_updateTable (m : List (String × List IndexQuery)) (q : IndexQuery) :
    (updateTable m q).map Prod.fst =
      if q.TableName ∈ m.map Prod.fst then m.map Prod.fst
      else m.map Prod.fst ++ [q.TableName] := by
  induction m with
  | nil => simp [updateTable]
  | cons kv rest ih =>
    obtain ⟨k, v⟩ := kv
    by_cases hk : k = q.TableName
    · simp [updateTable, hk]
    · have : q.TableName ≠ k := Ne.symm hk
      by_cases hmem : q.TableName ∈ rest.map Prod.fst <;>
        simp [updateTable, hk, this, hmem, ih]

theorem keys_nodup_updateTable (m : List (String × List IndexQuery)) (q : IndexQuery)
    (hm : (m.map Prod.fst).Nodup) : ((updateTable m q).map Prod.fst).Nodup := by
  rw [keys_updateTable]
  by_cases hmem : q.TableName ∈ m.map Prod.fst
  · simpa [hmem] using hm
  · simp [hmem, List.nodup_append, hm]

theorem keys_nodup_foldl (qs : List IndexQuery) (m : List (String × List IndexQuery))
    (hm : (m.map Prod.fst).Nodup) : ((qs.foldl updateTable m).map Prod.fst).Nodup := by
  induction qs generalizing m with
  | nil => simpa
  | cons q qs ih => exact ih _ (keys_nodup_updateTable m q hm)

theorem flatten_updateTable (m : List (String × List IndexQuery)) (q : IndexQuery) :
    (((updateTable m q).map Prod.snd).flatten).Perm
      ((m.map Prod.snd).flatten ++ [q]) := by
  induction m with
  | nil => simp [updateTable]
  | cons kv rest ih =>
    obtain ⟨k, v⟩ := kv
    by_cases hk : k = q.TableName
    · simp only [updateTable, hk, if_true, List.map_cons, List.flatten_cons,
        List.append_assoc, List.singleton_append]
      exact List.Perm.append_left v
        (@List.perm_append_comm _ [q] ((rest.map Prod.snd).flatten))
    · simp only [updateTable, hk, if_false, List.map_cons, List.flatten_cons,
        List.append_assoc]
      exact List.Perm.append_left v ih

theorem flatten_foldl (qs : List IndexQuery) (m : List (String × List IndexQuery)) :
    (((qs.foldl updateTable m).map Prod.snd).flatten).Perm
      ((m.map Prod.snd).flatten ++ qs) := by
  induction qs generalizing m with
  | nil => simp
  | cons q qs ih =>
    rw [List.foldl_cons]
    have h1 := (ih (updateTable m q)).trans
      ((flatten_updateTable m q).append_right qs)
    simpa using h1

/-- C5: QueriesByTable is a partition of the input by table name: the list
grouped under each table t is exactly the sub-sequence of input queries whose
TableName is t (same relative order as the input), no table key occurs twice
(so no query occurrence lands in two groups), the concatenation of all groups
is a permutation of the input (multiset union equals the input multiset), and
the empty input yields the empty mapping. -/
theorem queriesByTable_partition (queries : List IndexQuery) :
    (∀ t, lookupTable (QueriesByTable queries) t
        = queries.filter (fun q => decide (q.TableName = t)))
  ∧ ((QueriesByTable queries).map Prod.fst).Nodup
  ∧ (((QueriesByTable queries).map Prod.snd).flatten).Perm queries
  ∧ QueriesByTable ([] : List IndexQuery) = [] := by
  refine ⟨fun t => ?_, ?_, ?_, rfl⟩
  · rw [QueriesByTable, lookupTable_foldl]; rfl
  · exact keys_nodup_foldl queries [] (by simp)
  · simpa using flatten_foldl queries []

theorem chunkRef_less_iff (a b : ChunkRef) :
    a.Less b = true ↔ (a.Start < b.Start ∨ (a.Start = b.Start ∧ a.End ≤ b.End)) := by
  unfold ChunkRef.Less
  by_cases h : a.Start = b.Start
  · simp [h]
  · simp [h]

/-- C6: a.Less(b) holds iff a.Start < b.Start, or a.Start = b.Start and
a.End ≤ b.End; hence Less is reflexive (r.Less(r) = true for every r), and a
list sorted by Less — here, the output of insertion sort under the Less
relation, which is total and transitive — is ordered by Start ascending (and
is a permutation of the input). -/
theorem chunkRefLess_spec :
    (∀ a b : ChunkRef, a.Less b = true ↔
        (a.Start < b.Start ∨ (a.Start = b.Start ∧ a.End ≤ b.End)))
  ∧ (∀ r : ChunkRef, r.Less r = true)
  ∧ (∀ l : List ChunkRef,
        (List.insertionSort lessRel l).Perm l
      ∧ (List.insertionSort lessRel l).Sorted (fun a b => a.Start ≤ b.Start)) := by
  refine ⟨chunkRef_less_iff, fun r => ?_, fun l => ⟨List.perm_insertionSort lessRel l, ?_⟩⟩
  · rw [chunkRef_less_iff]
    right
    exact ⟨rfl, le_refl _⟩
  · have hs := List.sorted_insertionSort lessRel l
    refine hs.imp ?_
    intro a b hab
    rcases (chunkRef_less_iff a b).mp hab with h | h
    · exact le_of_lt h
    · exact le_of_eq h.1

/-- C7: when the context is already cancelled or expired on entry
(ctxErr = some e), GetParallelChunks returns the nil chunk list together with
the context error; no work item is enqueued and the decode function is never
consulted (the result does not depend on f or on the chunk list contents). -/
theorem getParallelChunks_ctx_cancelled {α ε : Type} (e : ε) (chunks : List α)
    (f : α → Except ε α) : GetParallelChunks (some e) chunks f = ([], some e) := rfl

theorem isPowerOfTwo_two_pow (k : Nat) : isPowerOfTwo (2 ^ k) = true := by
  unfold isPowerOfTwo
  rw [List.any_eq_true]
  refine ⟨k, ?_, by simp⟩
  rw [List.mem_range]
  exact Nat.lt_succ_of_lt (Nat.lt_two_pow k)

theorem isPowerOfTwo_eq_true_iff (n : Nat) :
    isPowerOfTwo n = true ↔ ∃ k, n = 2 ^ k := by
  constructor
  · intro hp
    unfold isPowerOfTwo at hp
    rw [List.any_eq_true] at hp
    obtain ⟨k, hk, hbeq⟩ := hp
    exact ⟨k, by simpa using hbeq⟩
  · rintro ⟨k, rfl⟩
    exact isPowerOfTwo_two_pow k

/-- C8: a GetChunkRefs call with a non-nil shard whose count is not a power
of two — no exponent k has count = 2^k, e.g. (index 1, count 3) — is rejected
with an error before the query executes (for every underlying result set),
while any power-of-two count is accepted. Modelled from the spec, as no
GetChunkRefs implementation is under src/. -/
theorem getChunkRefs_shard_power_of_two :
    (∀ (s : Shard) (results : List ChunkRef), (∀ k : Nat, s.count ≠ 2 ^ k) →
        ∃ msg, GetChunkRefs (some s) results = Except.error msg)
  ∧ (∀ results : List ChunkRef, ∃ msg,
        GetChunkRefs (some { index := 1, count := 3 }) results = Except.error msg)
  ∧ (∀ (idx k : Nat) (results : List ChunkRef), ∃ out,
        GetChunkRefs (some { index := idx, count := 2 ^ k }) results = Except.ok out) := by
  refine ⟨?_, ?_, ?_⟩
  · intro s results hnp
    have hfalse : isPowerOfTwo s.count = false := by
      rw [Bool.eq_false_iff]
      intro hc
      obtain ⟨k, hk⟩ := (isPowerOfTwo_eq_true_iff s.count).mp hc
      exact hnp k hk
    refine ⟨"shard count must be a power of two", ?_⟩
    simp [GetChunkRefs, hfalse]
  · intro results
    refine ⟨"shard count must be a power of two", ?_⟩
    have h3 : isPowerOfTwo 3 = false := by decide
    simp [GetChunkRefs, h3]
  · intro idx k results
    refine ⟨results.filter (fun r => r.Fingerprint % 2 ^ k == idx), ?_⟩
    simp [GetChunkRefs, isPowerOfTwo_two_pow]

/-- Witness for C8: count 3 is not a power of two, and the rejection
conjunct applies to it. -/
theorem getChunkRefs_shard_power_of_two_witness :
    (∀ k : Nat, (3 : Nat) ≠ 2 ^ k)
  ∧ ∃ msg, GetChunkRefs (some { index := 1, count := 3 }) ([] : List ChunkRef)
      = Except.error msg := by
  have h3 : ∀ k : Nat, (3 : Nat) ≠ 2 ^ k := by
    intro k
    rcases k with _ | _ | n
    · decide
    · decide
    · intro hc
      have h4 : 2 ^ 2 ≤ 2 ^ (n + 2) := Nat.pow_le_pow_right (by decide) (by omega)
      simp at h4
      omega
  exact ⟨h3, getChunkRefs_shard_power_of_two.1 { index := 1, count := 3 } [] h3⟩

theorem isSeen_fst (i : IndexDeduper) (h r : String) :
    (i.isSeen h r).1 = true ↔ pairSeen i h r := by
  unfold IndexDeduper.isSeen pairSeen
  by_cases hm : r ∈ seenLookup i.seenRangeValues h
  · rw [if_pos hm]; simpa using hm
  · rw [if_neg hm]; simpa using hm

theorem isSeen_snd_of_seen (i : IndexDeduper) (h r : String)
    (hm : pairSeen i h r) : (i.isSeen h r).2 = i := by
  unfold IndexDeduper.isSeen
  unfold pairSeen at hm
  rw [if_pos hm]

theorem seenLookup_seenInsert (m : List (String × List String)) (h r t : String) :
    seenLookup (seenInsert m h r) t =
      if t = h then seenLookup m t ++ [r] else seenLookup m t := by
  induction m with
  | nil =>
    by_cases ht : t = h
    · simp [seenInsert, seenLookup, ht]
    · simp [seenInsert, seenLookup, ht, Ne.symm ht]
  | cons kv rest ih =>
    obtain ⟨k, v⟩ := kv
    by_cases hk : k = h
    · by_cases ht : t = h
      · simp [seenInsert, seenLookup, hk, ht]
      · simp [seenInsert, seenLookup, hk, ht, Ne.symm ht]
    · by_cases hkt : k = t
      · have ht : t ≠ h := by rw [← hkt]; exact hk
        simp [seenInsert, seenLookup, hk, hkt, ht]
      · by_cases ht : t = h
        · subst ht
          simp [seenInsert, seenLookup, hk, hkt, ih]
        · simp [seenInsert, seenLookup, hk, hkt, ht, ih]

theorem pairSeen_isSeen (i : IndexDeduper) (h r t s : String) :
    pairSeen (i.isSeen h r).2 t s ↔ pairSeen i t s ∨ (t = h ∧ s = r) := by
  by_cases hm : pairSeen i h r
  · rw [isSeen_snd_of_seen i h r hm]
    constructor
    · exact Or.inl
    · rintro (hp | ⟨ht, hs⟩)
      · exact hp
      · subst ht; subst hs; exact hm
  · have hm' : r ∉ seenLookup i.seenRangeValues h := hm
    unfold IndexDeduper.isSeen
    rw [if_neg hm']
    unfold pairSeen
    show s ∈ seenLookup (seenInsert i.seenRangeValues h r) t ↔ _
    rw [seenLookup_seenInsert]
    by_cases ht : t = h
    · subst ht
      simp [List.mem_append]
    · simp [ht]

theorem isSeen_fst_false (i : IndexDeduper) (h r : String)
    (hm : ¬ pairSeen i h r) : (i.isSeen h r).1 = false := by
  rw [Bool.eq_false_iff]
  intro hc
  exact hm ((isSeen_fst i h r).mp hc)

theorem filterBatch_cons (i : IndexDeduper) (h r : String) (rest : List String) :
    filterBatch i h (r :: rest) =
      if (i.isSeen h r).1 then filterBatch (i.isSeen h r).2 h rest
      else (r :: (filterBatch (i.isSeen h r).2 h rest).1,
            (filterBatch (i.isSeen h r).2 h rest).2) := rfl

theorem pairSeen_filterBatch (i : IndexDeduper) (h : String) (rs : List String)
    (t s : String) :
    pairSeen (filterBatch i h rs).2 t s ↔ pairSeen i t s ∨ (t = h ∧ s ∈ rs) := by
  induction rs generalizing i with
  | nil => simp [filterBatch]
  | cons r rest ih =>
    rw [filterBatch_cons]
    by_cases hm : pairSeen i h r
    · rw [(isSeen_fst i h r).mpr hm, if_pos rfl, isSeen_snd_of_seen i h r hm, ih]
      constructor
      · rintro (hp | ⟨ht, hs⟩)
        · exact Or.inl hp
        · exact Or.inr ⟨ht, List.mem_cons_of_mem r hs⟩
      · rintro (hp | ⟨ht, hs⟩)
        · exact Or.inl hp
        · rcases List.mem_cons.mp hs with hsr | hsr
          · subst ht; subst hsr; exact Or.inl hm
          · exact Or.inr ⟨ht, hsr⟩
    · rw [isSeen_fst_false i h r hm, if_neg Bool.false_ne_true]
      show pairSeen (filterBatch (i.isSeen h r).2 h rest).2 t s ↔ _
      rw [ih, pairSeen_isSeen]
      constructor
      · rintro ((hp | ⟨ht, hs⟩) | ⟨ht, hs⟩)
        · exact Or.inl hp
        · exact Or.inr ⟨ht, by rw [hs]; exact List.mem_cons_self r rest⟩
        · exact Or.inr ⟨ht, List.mem_cons_of_mem r hs⟩
      · rintro (hp | ⟨ht, hs⟩)
        · exact Or.inl (Or.inl hp)
        · rcases List.mem_cons.mp hs with hsr | hsr
          · exact Or.inl (Or.inr ⟨ht, hsr⟩)
          · exact Or.inr ⟨ht, hsr⟩

theorem mem_filterBatch (i : IndexDeduper) (h : String) (rs : List String)
    (s : String) :
    s ∈ (filterBatch i h rs).1 ↔ s ∈ rs ∧ ¬ pairSeen i h s := by
  induction rs generalizing i with
  | nil => simp [filterBatch]
  | cons r rest ih =>
    rw [filterBatch_cons]
    by_cases hm : pairSeen i h r
    · rw [(isSeen_fst i h r).mpr hm, if_pos rfl, isSeen_snd_of_seen i h r hm, ih]
      constructor
      · rintro ⟨hs, hns⟩
        exact ⟨List.mem_cons_of_mem r hs, hns⟩
      · rintro ⟨hs, hns⟩
        rcases List.mem_cons.mp hs with hsr | hsr
        · exact absurd (hsr ▸ hm) hns
        · exact ⟨hsr, hns⟩
    · rw [isSeen_fst_false i h r hm, if_neg Bool.false_ne_true]
      show s ∈ r :: (filterBatch (i.isSeen h r).2 h rest).1 ↔ _
      rw [List.mem_cons, ih, pairSeen_isSeen]
      constructor
      · rintro (hsr | ⟨hs, hns⟩)
        · subst hsr
          exact ⟨List.mem_cons_self s rest, hm⟩
        · exact ⟨List.mem_cons_of_mem r hs, fun hp => hns (Or.inl hp)⟩
      · rintro ⟨hs, hns⟩
        rcases List.mem_cons.mp hs with hsr | hsr
        · exact Or.inl hsr
        · by_cases hsr2 : s = r
          · exact Or.inl hsr2
          · right
            refine ⟨hsr, fun hp => ?_⟩
            rcases hp with hp | ⟨ht, hsr3⟩
            · exact hns hp
            · exact hsr2 hsr3

theorem nodup_filterBatch (i : IndexDeduper) (h : String) (rs : List String) :
    (filterBatch i h rs).1.Nodup := by
  induction rs generalizing i with
  | nil => simp [filterBatch]
  | cons r rest ih =>
    rw [filterBatch_cons]
    by_cases hm : pairSeen i h r
    · rw [(isSeen_fst i h r).mpr hm, if_pos rfl, isSeen_snd_of_seen i h r hm]
      exact ih i
    · rw [isSeen_fst_false i h r hm, if_neg Bool.false_ne_true]
      show (r :: (filterBatch (i.isSeen h r).2 h rest).1).Nodup
      rw [List.nodup_cons]
      constructor
      · intro hmem
        rw [mem_filterBatch] at hmem
        exact hmem.2 ((pairSeen_isSeen i h r h r).mpr (Or.inr ⟨rfl, rfl⟩))
      · exact ih _

theorem processBatches_cons (i : IndexDeduper) (h : String) (rs : List String)
    (rest : List (String × List String)) :
    processBatches i ((h, rs) :: rest) =
      ((filterBatch i h rs).1.map (fun r => (h, r))
          ++ (processBatches (filterBatch i h rs).2 rest).1,
        (processBatches (filterBatch i h rs).2 rest).2) := rfl

theorem pairSeen_processBatches (i : IndexDeduper)
    (bs : List (String × List String)) (t s : String) :
    pairSeen (processBatches i bs).2 t s ↔
      pairSeen i t s ∨ ∃ b ∈ bs, b.1 = t ∧ s ∈ b.2 := by
  induction bs generalizing i with
  | nil => simp [processBatches]
  | cons b rest ih =>
    obtain ⟨h, rs⟩ := b
    rw [processBatches_cons]
    show pairSeen (processBatches (filterBatch i h rs).2 rest).2 t s ↔ _
    rw [ih, pairSeen_filterBatch]
    constructor
    · rintro ((hp | ⟨ht, hs⟩) | ⟨b, hb, hbt, hbs⟩)
      · exact Or.inl hp
      · exact Or.inr ⟨(h, rs), List.mem_cons_self _ _, ht.symm, hs⟩
      · exact Or.inr ⟨b, List.mem_cons_of_mem _ hb, hbt, hbs⟩
    · rintro (hp | ⟨b, hb, hbt, hbs⟩)
      · exact Or.inl (Or.inl hp)
      · rcases List.mem_cons.mp hb with hbh | hbr
        · subst hbh
          exact Or.inl (Or.inr ⟨hbt.symm, hbs⟩)
        · exact Or.inr ⟨b, hbr, hbt, hbs⟩

theorem mem_processBatches (i : IndexDeduper) (bs : List (String × List String))
    (t s : String) :
    (t, s) ∈ (processBatches i bs).1 ↔
      ¬ pairSeen i t s ∧ ∃ b ∈ bs, b.1 = t ∧ s ∈ b.2 := by
  induction bs generalizing i with
  | nil => simp [processBatches]
  | cons b rest ih =>
    obtain ⟨h, rs⟩ := b
    rw [processBatches_cons]
    show (t, s) ∈ (filterBatch i h rs).1.map (fun r => (h, r))
        ++ (processBatches (filterBatch i h rs).2 rest).1 ↔ _
    rw [List.mem_append, List.mem_map, ih]
    constructor
    · rintro (⟨a, ha, heq⟩ | ⟨hns, b, hb, hbt, hbs⟩)
      · rw [Prod.mk.injEq] at heq
        obtain ⟨hht, has⟩ := heq
        subst hht; subst has
        rw [mem_filterBatch] at ha
        exact ⟨ha.2, ⟨(h, rs), List.mem_cons_self _ _, rfl, ha.1⟩⟩
      · refine ⟨fun hp => hns ((pairSeen_filterBatch i h rs t s).mpr (Or.inl hp)),
          b, List.mem_cons_of_mem _ hb, hbt, hbs⟩
    · rintro ⟨hns, b, hb, hbt, hbs⟩
      by_cases hhead : t = h ∧ s ∈ rs
      · left
        obtain ⟨hth, hsrs⟩ := hhead
        subst hth
        exact ⟨s, (mem_filterBatch i t rs s).mpr ⟨hsrs, hns⟩, rfl⟩
      · right
        have hbr : b ∈ rest := by
          rcases List.mem_cons.mp hb with hbh | hbr
          · exfalso; apply hhead; subst hbh; exact ⟨hbt.symm, hbs⟩
          · exact hbr
        refine ⟨fun hp => ?_, b, hbr, hbt, hbs⟩
        rcases (pairSeen_filterBatch i h rs t s).mp hp with hp | hp
        · exact hns hp
        · exact hhead hp

theorem nodup_processBatches (i : IndexDeduper)
    (bs : List (String × List String)) :
    (processBatches i bs).1.Nodup := by
  induction bs generalizing i with
  | nil => simp [processBatches]
  | cons b rest ih =>
    obtain ⟨h, rs⟩ := b
    rw [processBatches_cons]
    show ((filterBatch i h rs).1.map (fun r => (h, r))
        ++ (processBatches (filterBatch i h rs).2 rest).1).Nodup
    rw [List.nodup_append]
    refine ⟨?_, ih _, ?_⟩
    · refine (nodup_filterBatch i h rs).map ?_
      intro a b hab
      rw [Prod.mk.injEq] at hab
      exact hab.2
    · intro p hp1 hp2
      obtain ⟨a, ha, heq⟩ := List.mem_map.mp hp1
      subst heq
      rw [mem_processBatches] at hp2
      exact hp2.1 ((pairSeen_filterBatch i h rs h a).mpr
        (Or.inr ⟨rfl, ((mem_filterBatch i h rs a).mp ha).1⟩))

/-- C1: per table-scoped execution (one DoParallelQueries call sharing a
single IndexDeduper), each (hash, range) pair reaches the downstream
callback at most once — the delivered stream has no duplicate pairs — no
matter how many batches or sub-queries produced it; moreover a pair is
delivered (exactly once) precisely when some batch contained it, i.e. once
isSeen records a pair every later entry with that pair is skipped. -/
theorem indexDeduper_at_most_once (cb : IndexQuery → List String → Bool)
    (batches : List (String × List String)) :
    (processBatches (NewIndexDeduper cb) batches).1.Nodup
  ∧ ∀ t s, ((t, s) ∈ (processBatches (NewIndexDeduper cb) batches).1 ↔
      ∃ b ∈ batches, b.1 = t ∧ s ∈ b.2) := by
  refine ⟨nodup_processBatches _ _, fun t s => ?_⟩
  rw [mem_processBatches]
  have hempty : ¬ pairSeen (NewIndexDeduper cb) t s := by
    simp [pairSeen, NewIndexDeduper, seenLookup]
  simp [hempty]

/-- C9: IndexDeduper.Callback invokes the wrapped downstream callback exactly
once per (query, batch) pair, handing it the filtered view of the batch and
returning its boolean unchanged; when every entry of the batch is already
seen the downstream callback is still invoked, receiving an empty batch
rather than being suppressed. -/
theorem indexDeduper_callback_delivery (i : IndexDeduper) (q : IndexQuery)
    (batch : List String) :
    ((i.Callback q batch).1 = i.callback q (filterBatch i q.HashValue batch).1)
  ∧ ((∀ r ∈ batch, pairSeen i q.HashValue r) →
      (i.Callback q batch).1 = i.callback q []) := by
  constructor
  · rfl
  · intro hall
    have hempty : (filterBatch i q.HashValue batch).1 = [] := by
      rw [List.eq_nil_iff_forall_not_mem]
      intro s hs
      rw [mem_filterBatch] at hs
      exact hs.2 (hall s hs.1)
    show i.callback q (filterBatch i q.HashValue batch).1 = i.callback q []
    rw [hempty]

/-- Witness for C9 at a concrete deduper that has already seen the only
range value of the incoming batch: the downstream callback is invoked on the
empty filtered batch. -/
theorem indexDeduper_callback_delivery_witness :
    (IndexDeduper.Callback
        { callback := fun _ rs => rs.isEmpty,
          seenRangeValues := [("h1", ["r1"])], numEntriesSent := 1 }
        { TableName := "t", HashValue := "h1" } ["r1", "r1"]).1
      = (({ callback := fun _ rs => rs.isEmpty,
            seenRangeValues := [("h1", ["r1"])], numEntriesSent := 1 } : IndexDeduper)).callback
          { TableName := "t", HashValue := "h1" } [] :=
  (indexDeduper_callback_delivery _ _ _).2 (by decide)

theorem totalSeen_cons (k : String) (v : List String)
    (rest : List (String × List String)) :
    totalSeen ((k, v) :: rest) = v.length + totalSeen rest := by
  simp [totalSeen]

theorem totalSeen_seenInsert (m : List (String × List String)) (h r : String) :
    totalSeen (seenInsert m h r) = totalSeen m + 1 := by
  induction m with
  | nil => simp [seenInsert, totalSeen]
  | cons kv rest ih =>
    obtain ⟨k, v⟩ := kv
    by_cases hk : k = h
    · simp only [seenInsert, if_pos hk]
      rw [totalSeen_cons, totalSeen_cons, List.length_append]
      simp
      omega
    · simp only [seenInsert, if_neg hk]
      rw [totalSeen_cons, totalSeen_cons, ih]
      omega

theorem nodup_seenInsert (m : List (String × List String)) (h r : String)
    (hm : ∀ kv ∈ m, kv.2.Nodup) (hr : r ∉ seenLookup m h) :
    ∀ kv ∈ seenInsert m h r, kv.2.Nodup := by
  induction m with
  | nil =>
    intro kv hkv
    simp only [seenInsert, List.mem_singleton] at hkv
    subst hkv
    simp
  | cons kv0 rest ih =>
    obtain ⟨k, v⟩ := kv0
    intro kv hkv
    by_cases hk : k = h
    · simp only [seenInsert, if_pos hk] at hkv
      rcases List.mem_cons.mp hkv with he | hrest
      · subst he
        have hv : v.Nodup := hm (k, v) (List.mem_cons_self _ _)
        have hrv : r ∉ v := by
          intro hc
          apply hr
          simp [seenLookup, hk]
          exact hc
        simp [List.nodup_append, hv, hrv]
      · exact hm kv (List.mem_cons_of_mem _ hrest)
    · simp only [seenInsert, if_neg hk] at hkv
      rcases List.mem_cons.mp hkv with he | hrest
      · subst he
        exact hm (k, v) (List.mem_cons_self _ _)
      · refine ih (fun kv2 hkv2 => hm kv2 (List.mem_cons_of_mem _ hkv2)) ?_ kv hrest
        intro hc
        apply hr
        simpa [seenLookup, hk] using hc

/-- C10: every IndexDeduper maintains numEntriesSent = total number of
(hash, range) pairs stored in seenRangeValues (the sum over hash keys of the
size of that hash's range-value set): it holds at construction (both zero),
and every isSeen call preserves it, incrementing numEntriesSent exactly when
it inserts a new pair; the inner collections remain duplicate-free, so their
lengths are genuine set sizes. -/
theorem indexDeduper_count_invariant :
    (∀ cb, (NewIndexDeduper cb).numEntriesSent
        = totalSeen (NewIndexDeduper cb).seenRangeValues)
  ∧ (∀ (i : IndexDeduper) (h r : String),
        i.numEntriesSent = totalSeen i.seenRangeValues →
        ((i.isSeen h r).2).numEntriesSent
          = totalSeen ((i.isSeen h r).2).seenRangeValues)
  ∧ (∀ (i : IndexDeduper) (h r : String),
        (∀ kv ∈ i.seenRangeValues, kv.2.Nodup) →
        ∀ kv ∈ ((i.isSeen h r).2).seenRangeValues, kv.2.Nodup) := by
  refine ⟨fun cb => rfl, ?_, ?_⟩
  · intro i h r hinv
    unfold IndexDeduper.isSeen
    by_cases hm : r ∈ seenLookup i.seenRangeValues h
    · rw [if_pos hm]
      exact hinv
    · rw [if_neg hm]
      show i.numEntriesSent + 1 = totalSeen (seenInsert i.seenRangeValues h r)
      rw [totalSeen_seenInsert, hinv]
  · intro i h r hnd
    unfold IndexDeduper.isSeen
    by_cases hm : r ∈ seenLookup i.seenRangeValues h
    · rw [if_pos hm]
      exact hnd
    · rw [if_neg hm]
      exact nodup_seenInsert i.seenRangeValues h r hnd hm

/-- Witness for C10: the preservation step applied to a freshly constructed
deduper, whose invariant holds by computation. -/
theorem indexDeduper_count_invariant_witness :
    ((NewIndexDeduper (fun _ _ => true)).isSeen "h1" "r1").2.numEntriesSent
      = totalSeen
          ((NewIndexDeduper (fun _ _ => true)).isSeen "h1" "r1").2.seenRangeValues :=
  indexDeduper_count_invariant.2.1 (NewIndexDeduper (fun _ _ => true)) "h1" "r1" rfl

theorem collectErrors_append_some {ε : Type} (l : List (Option ε)) (e : ε) :
    collectErrors (l ++ [some e]) = some e := by
  simp [collectErrors, List.foldl_append]

theorem collectErrors_append_none {ε : Type} (l : List (Option ε)) :
    collectErrors (l ++ [none]) = collectErrors l := by
  simp [collectErrors, List.foldl_append]

theorem collectErrors_none_iff {ε : Type} (l : List (Option ε)) :
    collectErrors l = none ↔ ∀ e ∈ l, e = none := by
  induction l using List.reverseRecOn with
  | nil => simp [collectErrors]
  | append_singleton l x ih =>
    cases x with
    | none =>
      rw [collectErrors_append_none, ih]
      constructor
      · intro hall e he
        rcases List.mem_append.mp he with hl | hx
        · exact hall e hl
        · simpa using hx
      · intro hall e he
        exact hall e (List.mem_append_left _ he)
    | some e =>
      rw [collectErrors_append_some]
      constructor
      · intro hc; exact absurd hc (by simp)
      · intro hall
        exact absurd (hall (some e) (List.mem_append_right _ (by simp))) (by simp)

theorem collectErrors_mem {ε : Type} (l : List (Option ε)) (e : ε)
    (hc : collectErrors l = some e) : some e ∈ l := by
  induction l using List.reverseRecOn with
  | nil => simp [collectErrors] at hc
  | append_singleton l x ih =>
    cases x with
    | none =>
      rw [collectErrors_append_none] at hc
      exact List.mem_append_left _ (ih hc)
    | some e2 =>
      rw [collectErrors_append_some, Option.some.injEq] at hc
      subst hc
      exact List.mem_append_right _ (by simp)

theorem collectErrors_all_none_right {ε : Type} (l0 l2 : List (Option ε))
    (h2 : ∀ x ∈ l2, x = none) :
    collectErrors (l0 ++ l2) = collectErrors l0 := by
  induction l2 using List.reverseRecOn with
  | nil => simp
  | append_singleton l2 x ih =>
    have hx : x = none := h2 x (by simp)
    subst hx
    rw [← List.append_assoc, collectErrors_append_none]
    exact ih (fun y hy => h2 y (List.mem_append_left _ hy))

theorem collectErrors_last {ε : Type} (l1 l2 : List (Option ε)) (e : ε)
    (h2 : ∀ x ∈ l2, x = none) :
    collectErrors (l1 ++ some e :: l2) = some e := by
  have hsplit : l1 ++ some e :: l2 = (l1 ++ [some e]) ++ l2 := by simp
  rw [hsplit, collectErrors_all_none_right _ _ h2, collectErrors_append_some]

theorem doParallelQueries_snd {ε : Type}
    (tq : List IndexQuery → List (String × List String) × Option ε)
    (qs : List IndexQuery) (cb : IndexQuery → List String → Bool) (hq : qs ≠ []) :
    (DoParallelQueries tq qs cb).2 =
      collectErrors ((batchQueries qs).map (fun g => (tq g).2)) := by
  unfold DoParallelQueries
  rw [if_neg hq]
  simp only [List.map_map]
  rfl

theorem doParallelQueries_fst {ε : Type}
    (tq : List IndexQuery → List (String × List String) × Option ε)
    (qs : List IndexQuery) (cb : IndexQuery → List String → Bool) (hq : qs ≠ []) :
    (DoParallelQueries tq qs cb).1 =
      (processBatches (NewIndexDeduper cb)
        (((batchQueries qs).map (fun g => (tq g).1)).flatten)).1 := by
  unfold DoParallelQueries
  rw [if_neg hq]
  simp only [List.map_map]
  rfl

theorem batchQueries_nil : batchQueries [] = [] := by
  rw [batchQueries]
  simp

theorem batchQueries_short (qs : List IndexQuery) (h0 : qs ≠ [])
    (hle : qs.length ≤ maxQueriesPerGoroutine) : batchQueries qs = [qs] := by
  rw [batchQueries, dif_neg h0, List.take_of_length_le hle,
    List.drop_eq_nil_of_le hle, batchQueries_nil]

theorem batchQueries_flatten (qs : List IndexQuery) :
    (batchQueries qs).flatten = qs := by
  induction qs using batchQueries.induct with
  | case1 => rw [batchQueries_nil]; rfl
  | case2 qs h ih => rw [batchQueries, dif_neg h]; simp [ih]

theorem batchQueries_length (qs : List IndexQuery) :
    (batchQueries qs).length = (qs.length + 99) / 100 := by
  induction qs using batchQueries.induct with
  | case1 => rw [batchQueries_nil]; rfl
  | case2 qs h ih =>
    rw [batchQueries, dif_neg h]
    rw [List.length_cons, ih, List.length_drop]
    have hpos : 0 < qs.length := List.length_pos.mpr h
    simp only [maxQueriesPerGoroutine]
    omega

theorem batchQueries_mem (qs : List IndexQuery) :
    ∀ g ∈ batchQueries qs, g.length ≤ maxQueriesPerGoroutine ∧ g ≠ [] := by
  induction qs using batchQueries.induct with
  | case1 => rw [batchQueries_nil]; simp
  | case2 qs h ih =>
    rw [batchQueries, dif_neg h]
    intro g hg
    rcases List.mem_cons.mp hg with hgh | hgr
    · subst hgh
      refine ⟨by simp, ?_⟩
      intro hc
      rcases List.take_eq_nil_iff.mp hc with hz | hz
      · exact absurd hz (by simp [maxQueriesPerGoroutine])
      · exact h hz
    · exact ih g hgr

theorem batchQueries_250 (qs : List IndexQuery) (hl : qs.length = 250) :
    (batchQueries qs).map List.length = [100, 100, 50] := by
  have h0 : qs ≠ [] := by
    intro hc; rw [hc] at hl; simp at hl
  have hd1 : (qs.drop maxQueriesPerGoroutine).length = 150 := by
    rw [List.length_drop, hl]; rfl
  have h1 : qs.drop maxQueriesPerGoroutine ≠ [] := by
    intro hc; rw [hc] at hd1; simp at hd1
  have hd2 : ((qs.drop maxQueriesPerGoroutine).drop maxQueriesPerGoroutine).length
      = 50 := by
    rw [List.length_drop, hd1]; rfl
  have h2 : (qs.drop maxQueriesPerGoroutine).drop maxQueriesPerGoroutine ≠ [] := by
    intro hc; rw [hc] at hd2; simp at hd2
  rw [batchQueries, dif_neg h0, batchQueries, dif_neg h1,
    batchQueries_short _ h2 (by rw [hd2]; decide)]
  simp [List.length_take, hl, hd1, hd2, maxQueriesPerGoroutine]

/-- C3: DoParallelQueries on an empty query list succeeds (nil error) without
consulting the querier; on a non-empty list the returned error is nil iff
every worker succeeded, a non-nil returned error is exactly some worker's
error (never a combined multi-error), the error of the last failing worker
in completion order is the one returned (most recently observed wins), and
the delivered results depend only on the batches the workers produced, never
on their errors — results delivered before a failure are not rolled back. -/
theorem doParallelQueries_errors {ε : Type}
    (tq tq' : List IndexQuery → List (String × List String) × Option ε)
    (cb : IndexQuery → List String → Bool) (qs : List IndexQuery) :
    (DoParallelQueries tq ([] : List IndexQuery) cb = ([], none))
  ∧ ((DoParallelQueries tq qs cb).2 = none ↔ ∀ g ∈ batchQueries qs, (tq g).2 = none)
  ∧ (∀ e, (DoParallelQueries tq qs cb).2 = some e →
      ∃ g ∈ batchQueries qs, (tq g).2 = some e)
  ∧ (∀ (e : ε) (gs1 gs2 : List (List IndexQuery)) (g : List IndexQuery),
      batchQueries qs = gs1 ++ g :: gs2 → (tq g).2 = some e →
      (∀ g2 ∈ gs2, (tq g2).2 = none) → (DoParallelQueries tq qs cb).2 = some e)
  ∧ ((∀ g, (tq g).1 = (tq' g).1) →
      (DoParallelQueries tq qs cb).1 = (DoParallelQueries tq' qs cb).1) := by
  refine ⟨rfl, ?_, ?_, ?_, ?_⟩
  · by_cases hq : qs = []
    · subst hq
      rw [batchQueries_nil]
      simp [DoParallelQueries]
    · rw [doParallelQueries_snd tq qs cb hq, collectErrors_none_iff]
      constructor
      · intro hall g hg
        exact hall _ (List.mem_map_of_mem _ hg)
      · intro hall e he
        obtain ⟨g, hg, heq⟩ := List.mem_map.mp he
        rw [← heq]
        exact hall g hg
  · intro e hsome
    by_cases hq : qs = []
    · subst hq
      simp [DoParallelQueries] at hsome
    · rw [doParallelQueries_snd tq qs cb hq] at hsome
      obtain ⟨g, hg, heq⟩ := List.mem_map.mp (collectErrors_mem _ _ hsome)
      exact ⟨g, hg, heq⟩
  · intro e gs1 gs2 g hsplit hg hnone
    have hq : qs ≠ [] := by
      intro hc
      subst hc
      rw [batchQueries_nil] at hsplit
      exact absurd hsplit.symm (by simp)
    rw [doParallelQueries_snd tq qs cb hq, hsplit, List.map_append, List.map_cons, hg]
    refine collectErrors_last _ _ e ?_
    intro x hx
    obtain ⟨g2, hg2, heq⟩ := List.mem_map.mp hx
    rw [← heq]
    exact hnone g2 hg2
  · intro hsame
    by_cases hq : qs = []
    · subst hq; rfl
    · rw [doParallelQueries_fst tq qs cb hq, doParallelQueries_fst tq' qs cb hq]
      have hfun : (fun g => (tq g).1) = (fun g => (tq' g).1) := funext hsame
      rw [hfun]

/-- Witness for C3: with one group whose worker fails, the returned error is
that worker's error. -/
theorem doParallelQueries_errors_witness :
    (DoParallelQueries
        (fun _ => (([] : List (String × List String)), some "boom"))
        [{ TableName := "t", HashValue := "h" }] (fun _ _ => true)).2
      = some "boom" :=
  (doParallelQueries_errors
      (fun _ => (([] : List (String × List String)), some "boom"))
      (fun _ => (([] : List (String × List String)), some "boom"))
      (fun _ _ => true)
      [{ TableName := "t", HashValue := "h" }]).2.2.2.1 "boom" [] []
    [{ TableName := "t", HashValue := "h" }]
    (by rw [batchQueries_short _ (List.cons_ne_nil _ _) (by decide)]; rfl)
    rfl
    (by simp)

/-- C4: with 1 ≤ len(queries) ≤ 100 (maxQueriesPerGoroutine) DoParallelQueries
issues exactly one querier call covering the whole batch (a single dispatch
group equal to the full list); in general the queries are partitioned, in
input order, into ceil(len/100) contiguous groups of at most 100 each (none
empty) whose concatenation is the input — 250 queries give exactly 3 groups
of sizes 100, 100, 50 — and every group's results are routed through the one
IndexDeduper instance created for the call, so the delivered stream is
deduplicated as a single logical set (no duplicate (hash, range) pair across
the whole call). -/
theorem doParallelQueries_batching {ε : Type}
    (tq : List IndexQuery → List (String × List String) × Option ε)
    (cb : IndexQuery → List String → Bool) (qs : List IndexQuery) :
    (1 ≤ qs.length → qs.length ≤ maxQueriesPerGoroutine → batchQueries qs = [qs])
  ∧ (batchQueries qs).flatten = qs
  ∧ (batchQueries qs).length = (qs.length + 99) / 100
  ∧ (∀ g ∈ batchQueries qs, g.length ≤ maxQueriesPerGoroutine ∧ g ≠ [])
  ∧ (qs.length = 250 → (batchQueries qs).map List.length = [100, 100, 50])
  ∧ (qs ≠ [] → (DoParallelQueries tq qs cb).1 =
        (processBatches (NewIndexDeduper cb)
          (((batchQueries qs).map (fun g => (tq g).1)).flatten)).1)
  ∧ (DoParallelQueries tq qs cb).1.Nodup := by
  refine ⟨?_, batchQueries_flatten qs, batchQueries_length qs, batchQueries_mem qs,
    batchQueries_250 qs, doParallelQueries_fst tq qs cb, ?_⟩
  · intro h1 h2
    refine batchQueries_short qs ?_ h2
    intro hc
    rw [hc] at h1
    simp at h1
  · by_cases hq : qs = []
    · subst hq
      have hnil : DoParallelQueries tq ([] : List IndexQuery) cb = ([], none) := rfl
      rw [hnil]
      exact List.nodup_nil
    · rw [doParallelQueries_fst tq qs cb hq]
      exact nodup_processBatches _ _

/-- Witness for C4: a one-query batch is dispatched as a single group
covering the whole list. -/
theorem doParallelQueries_batching_witness :
    batchQueries [{ TableName := "t", HashValue := "h" }]
      = [[{ TableName := "t", HashValue := "h" }]] :=
  (doParallelQueries_batching
      (fun _ => (([] : List (String × List String)), (none : Option Unit)))
      (fun _ _ => true)
      [{ TableName := "t", HashValue := "h" }]).1 (by decide) (by decide)

theorem collectOutcomes_append_ok {α ε : Type} (l : List (Except ε α)) (c : α) :
    collectOutcomes (l ++ [Except.ok c])
      = ((collectOutcomes l).1 ++ [c], (collectOutcomes l).2) := by
  simp [collectOutcomes, List.foldl_append]

theorem collectOutcomes_append_error {α ε : Type} (l : List (Except ε α)) (e : ε) :
    collectOutcomes (l ++ [Except.error e]) = ((collectOutcomes l).1, some e) := by
  simp [collectOutcomes, List.foldl_append]

theorem collectOutcomes_fst {α ε : Type} (l : List (Except ε α)) :
    (collectOutcomes l).1 = l.filterMap (fun o => o.toOption) := by
  induction l using List.reverseRecOn with
  | nil => rfl
  | append_singleton l x ih =>
    cases x with
    | ok c =>
      rw [collectOutcomes_append_ok]
      simp [List.filterMap_append, ih, Except.toOption]
    | error e =>
      rw [collectOutcomes_append_error]
      simp [List.filterMap_append, ih, Except.toOption]

theorem collectOutcomes_snd_none_iff {α ε : Type} (l : List (Except ε α)) :
    (collectOutcomes l).2 = none ↔ ∀ o ∈ l, o.isOk = true := by
  induction l using List.reverseRecOn with
  | nil => simp [collectOutcomes]
  | append_singleton l x ih =>
    cases x with
    | ok c =>
      rw [collectOutcomes_append_ok]
      show (collectOutcomes l).2 = none ↔ _
      rw [ih]
      constructor
      · intro hall o ho
        rcases List.mem_append.mp ho with hl | hx
        · exact hall o hl
        · rw [List.mem_singleton.mp hx]; rfl
      · intro hall o ho
        exact hall o (List.mem_append_left _ ho)
    | error e =>
      rw [collectOutcomes_append_error]
      show some e = none ↔ _
      constructor
      · intro hc
        exact absurd hc (by simp)
      · intro hall
        have hbad := hall (Except.error e) (List.mem_append_right _ (by simp))
        simp [Except.isOk, Except.toBool] at hbad

theorem collectOutcomes_snd_all_ok_right {α ε : Type} (l0 l2 : List (Except ε α))
    (h2 : ∀ o ∈ l2, o.isOk = true) :
    (collectOutcomes (l0 ++ l2)).2 = (collectOutcomes l0).2 := by
  induction l2 using List.reverseRecOn with
  | nil => simp
  | append_singleton l2 x ih =>
    cases x with
    | ok c =>
      rw [← List.append_assoc, collectOutcomes_append_ok]
      exact ih (fun y hy => h2 y (List.mem_append_left _ hy))
    | error e =>
      have hbad := h2 (Except.error e) (List.mem_append_right _ (by simp))
      simp [Except.isOk, Except.toBool] at hbad

theorem collectOutcomes_last_error {α ε : Type} (l1 l2 : List (Except ε α)) (e : ε)
    (h2 : ∀ o ∈ l2, o.isOk = true) :
    (collectOutcomes (l1 ++ Except.error e :: l2)).2 = some e := by
  have hsplit : l1 ++ Except.error e :: l2 = (l1 ++ [Except.error e]) ++ l2 := by simp
  rw [hsplit, collectOutcomes_snd_all_ok_right _ _ h2, collectOutcomes_append_error]

theorem exceptIsOk_ok {α ε : Type} (c : α) :
    (Except.ok c : Except ε α).isOk = true := rfl

theorem exceptIsOk_error {α ε : Type} (e : ε) :
    (Except.error e : Except ε α).isOk = false := rfl

theorem exceptToOption_ok {α ε : Type} (c : α) :
    (Except.ok c : Except ε α).toOption = some c := rfl

theorem exceptToOption_error {α ε : Type} (e : ε) :
    (Except.error e : Except ε α).toOption = none := rfl

theorem length_filterMap_toOption {α ε : Type} (l : List (Except ε α)) :
    (l.filterMap (fun o => o.toOption)).length = l.countP (fun o => o.isOk) := by
  induction l with
  | nil => rfl
  | cons o rest ih =>
    cases o with
    | ok c =>
      simp only [List.filterMap_cons, exceptToOption_ok, List.length_cons, ih,
        List.countP_cons, exceptIsOk_ok]
      simp
    | error e =>
      simp only [List.filterMap_cons, exceptToOption_error, ih, List.countP_cons,
        exceptIsOk_error]
      simp

theorem countP_isOk_add {α ε : Type} (l : List (Except ε α)) :
    l.countP (fun o => o.isOk) + l.countP (fun o => !o.isOk) = l.length := by
  induction l with
  | nil => rfl
  | cons o rest ih =>
    cases o with
    | ok c =>
      simp only [List.countP_cons, exceptIsOk_ok, Bool.not_true, List.length_cons]
      simp
      omega
    | error e =>
      simp only [List.countP_cons, exceptIsOk_error, Bool.not_false, List.length_cons]
      simp
      omega

/-- C2: for every GetParallelChunks call that passes the initial context
check, and for every worker interleaving (modelled as an arbitrary
permutation of the chunk refs as arrival order): the returned list is
exactly the successfully decoded chunks in arrival order, its length equals
the number of decodeFn successes, successes plus failures account for all
len(chunkRefs) outcomes, the returned error is nil iff every decodeFn call
succeeded, a failure followed only by successes yields exactly that last
error, and in particular 5 refs with exactly one failing give a result list
of length 4 with a non-nil error, wherever the failing ref sits. -/
theorem getParallelChunks_outcomes {α ε : Type} (chunks order : List α)
    (f : α → Except ε α) (hperm : order.Perm chunks) :
    ((GetParallelChunks none order f).1
        = (order.map f).filterMap (fun o => o.toOption))
  ∧ ((GetParallelChunks none order f).1.length
        = (chunks.map f).countP (fun o => o.isOk))
  ∧ ((GetParallelChunks none order f).1.length
        + (chunks.map f).countP (fun o => !o.isOk) = chunks.length)
  ∧ ((GetParallelChunks none order f).2 = none ↔ ∀ c ∈ chunks, (f c).isOk = true)
  ∧ (∀ (e : ε) (l1 l2 : List (Except ε α)),
      order.map f = l1 ++ Except.error e :: l2 → (∀ o ∈ l2, o.isOk = true) →
      (GetParallelChunks none order f).2 = some e)
  ∧ (chunks.length = 5 → (chunks.map f).countP (fun o => !o.isOk) = 1 →
      (GetParallelChunks none order f).1.length = 4
      ∧ (GetParallelChunks none order f).2 ≠ none) := by
  have hmap : (order.map f).Perm (chunks.map f) := hperm.map f
  have h1 : (GetParallelChunks none order f).1
      = (order.map f).filterMap (fun o => o.toOption) := collectOutcomes_fst _
  have h2 : (GetParallelChunks none order f).1.length
      = (chunks.map f).countP (fun o => o.isOk) := by
    rw [h1, length_filterMap_toOption, hmap.countP_eq]
  have hsum := countP_isOk_add (chunks.map f)
  have hlenmap : (chunks.map f).length = chunks.length := List.length_map _ _
  have h3 : (GetParallelChunks none order f).1.length
      + (chunks.map f).countP (fun o => !o.isOk) = chunks.length := by
    omega
  have h4 : (GetParallelChunks none order f).2 = none
      ↔ ∀ c ∈ chunks, (f c).isOk = true := by
    show (collectOutcomes (order.map f)).2 = none ↔ _
    rw [collectOutcomes_snd_none_iff]
    constructor
    · intro hall c hc
      exact hall (f c) (List.mem_map_of_mem f (hperm.mem_iff.mpr hc))
    · intro hall o ho
      obtain ⟨c, hc, heq⟩ := List.mem_map.mp ho
      rw [← heq]
      exact hall c (hperm.mem_iff.mp hc)
  refine ⟨h1, h2, h3, h4, ?_, ?_⟩
  · intro e l1 l2 hsp hok
    show (collectOutcomes (order.map f)).2 = some e
    rw [hsp]
    exact collectOutcomes_last_error l1 l2 e hok
  · intro h5 hone
    refine ⟨by omega, ?_⟩
    intro hc
    have hall := h4.mp hc
    have hzero : (chunks.map f).countP (fun o => !o.isOk) = 0 := by
      rw [List.countP_eq_zero]
      intro o ho
      obtain ⟨c, hcm, heq⟩ := List.mem_map.mp ho
      rw [← heq]
      simp [hall c hcm]
    omega

/-- Witness for C2: 5 chunk refs, one failing decode, out-of-order arrival:
4 successes are returned together with a non-nil error. -/
theorem getParallelChunks_outcomes_witness :
    (GetParallelChunks none [2, 1, 3, 4, 5]
        (fun n => if n = 3 then Except.error "bad" else Except.ok n)).1.length = 4
  ∧ (GetParallelChunks none [2, 1, 3, 4, 5]
        (fun n => if n = 3 then Except.error "bad" else Except.ok n)).2
      ≠ (none : Option String) :=
  (getParallelChunks_outcomes [1, 2, 3, 4, 5] [2, 1, 3, 4, 5]
      (fun n => if n = 3 then Except.error "bad" else Except.ok n)
      (by decide)).2.2.2.2.2 (by decide) (by decide)
